import Mathlib

/-!
Verification of the trending-topic extraction core of the `eastbound`
content-automation pipeline, shallowly embedded from the Python sources:

* `scripts/monitor_russian_media.py` — keyword extraction, the trending-topic
  aggregator (`identify_trending_stories`) and the deduplicator
  (`deduplicate_articles`, built on `difflib.SequenceMatcher`);
* `scripts/advanced_keywords.py` — the TF-IDF corpus scorer
  (`extract_tfidf_keywords`, `extract_bigram_tfidf`) and its tokenizer;
* `scripts/load_historical_context.py` — the temporal context sampler
  (`sample_articles`).

Modelling conventions:
* Python `float` arithmetic is idealised as exact arithmetic: `ℚ` where the
  code only divides integers (similarity ratios, sampling strides) and `ℝ`
  where `math.log` is involved (TF-IDF scores).
* Python strings are Lean `String`s; `str.lower`/`\w`/`str.isdigit` are
  modelled character-wise over ASCII (`Char.toLower`, `Char.isAlphanum`),
  which agrees with CPython on the ASCII inputs the claims use.
* A raised exception is modelled as `Option.none` where a function has a
  raising path; functions with no raising path are total.
* Python dicts are modelled as insertion-ordered association lists, matching
  CPython's dict iteration order.
-/

set_option maxRecDepth 100000

namespace Eastbound

/-- An RSS article record as assembled by `fetch_rss_feed` in
`monitor_russian_media.py` (sentiment fields are irrelevant to the scoring
core and omitted; absent dict keys are modelled as `""`, matching the
code's `article.get(key, '')` accesses). -/
structure Article where
  source : String
  title : String
  link : String
  published : String
  summary : String
deriving DecidableEq, Repr

instance : Inhabited Article := ⟨⟨"", "", "", "", ""⟩⟩

/-- Model of Python `str.lower` (character-wise; exact on ASCII). -/
def pyLower (s : String) : String := s.map Char.toLower

/-! ## difflib.SequenceMatcher (CPython) with `isjunk=None`, `autojunk=True`

`deduplicate_articles` measures fuzzy title similarity with
`SequenceMatcher(None, title1, title2).ratio()`.  The embedding below follows
CPython's `difflib.py`: the `b2j`-based dynamic program of
`find_longest_match` (junk elements of `b` excluded, ties resolved towards
the match starting earliest in `a`, then earliest in `b`), the four
extension loops, the recursive block decomposition of
`get_matching_blocks`, and `ratio = 2*M / (len(a)+len(b))`. -/

/-- The `autojunk` heuristic: for `len(b) >= 200`, elements occurring more
than `len(b) // 100 + 1` times in `b` are junk. -/
def autoJunk (b : List Char) : List Char :=
  if b.length < 200 then []
  else (b.dedup.filter (fun c => b.length / 100 + 1 < b.count c))

/-- One row (fixed `i`, all `j`) of `find_longest_match`'s dynamic program:
`newj2len[j] = j2len[j-1] + 1` on a non-junk in-window match, and the best
block is updated whenever a strictly longer run ends at `(i, j)`, scanning
`j` in ascending order exactly as CPython's sorted `b2j` lists do. -/
def flmStep (b : List Char) (junk : List Char) (blo bhi : Nat) (i : Nat) (ai : Char)
    (st : List Nat × (Nat × Nat × Nat)) : List Nat × (Nat × Nat × Nat) :=
  (List.range b.length).foldl
    (fun acc j =>
      let hit := blo ≤ j ∧ j < bhi ∧ b.getD j ' ' = ai ∧ b.getD j ' ' ∉ junk
      let k := if hit then (if j = 0 then 0 else st.1.getD (j - 1) 0) + 1 else 0
      let best := if acc.2.2.2 < k then (i + 1 - k, j + 1 - k, k) else acc.2
      (acc.1 ++ [k], best))
    ([], st.2)

/-- The dynamic-programming part of `find_longest_match` over the window
`[alo, ahi) × [blo, bhi)` (before the extension loops). -/
def flmCore (a b : List Char) (junk : List Char) (alo ahi blo bhi : Nat) :
    Nat × Nat × Nat :=
  ((List.range' alo (ahi - alo)).foldl
    (fun st i => flmStep b junk blo bhi i (a.getD i ' ') st)
    (List.replicate b.length 0, (alo, blo, 0))).2

/-- The two leftward extension loops of `find_longest_match`: extend the best
block by matching elements on the left whose junk status equals `wantJunk`. -/
def flmExtL (a b : List Char) (junk : List Char) (alo blo : Nat) (wantJunk : Bool) :
    Nat → Nat × Nat × Nat → Nat × Nat × Nat
  | 0, best => best
  | fuel + 1, (bi, bj, bs) =>
    if alo < bi ∧ blo < bj ∧ decide (b.getD (bj - 1) ' ' ∈ junk) = wantJunk ∧
        a.getD (bi - 1) ' ' = b.getD (bj - 1) ' '
    then flmExtL a b junk alo blo wantJunk fuel (bi - 1, bj - 1, bs + 1)
    else (bi, bj, bs)

/-- The two rightward extension loops of `find_longest_match`. -/
def flmExtR (a b : List Char) (junk : List Char) (ahi bhi : Nat) (wantJunk : Bool) :
    Nat → Nat × Nat × Nat → Nat × Nat × Nat
  | 0, best => best
  | fuel + 1, (bi, bj, bs) =>
    if bi + bs < ahi ∧ bj + bs < bhi ∧ decide (b.getD (bj + bs) ' ' ∈ junk) = wantJunk ∧
        a.getD (bi + bs) ' ' = b.getD (bj + bs) ' '
    then flmExtR a b junk ahi bhi wantJunk fuel (bi, bj, bs + 1)
    else (bi, bj, bs)

/-- CPython's `SequenceMatcher.find_longest_match` on the window
`[alo, ahi) × [blo, bhi)`: dynamic program, then the non-junk and junk
extension passes in source order. -/
def findLongestMatch (a b : List Char) (junk : List Char) (alo ahi blo bhi : Nat) :
    Nat × Nat × Nat :=
  let fuel := a.length + b.length + 1
  let best := flmCore a b junk alo ahi blo bhi
  let best := flmExtL a b junk alo blo false fuel best
  let best := flmExtR a b junk ahi bhi false fuel best
  let best := flmExtL a b junk alo blo true fuel best
  flmExtR a b junk ahi bhi true fuel best

/-- Total size of the matching blocks of `get_matching_blocks` (the sum that
`ratio` uses): recursively split around the longest match.  The fuel is an
upper bound on the recursion depth (windows shrink strictly). -/
def matchedTotal (a b : List Char) (junk : List Char) :
    Nat → Nat → Nat → Nat → Nat → Nat
  | 0, _, _, _, _ => 0
  | fuel + 1, alo, ahi, blo, bhi =>
    let m := findLongestMatch a b junk alo ahi blo bhi
    if m.2.2 = 0 then 0
    else
      m.2.2 + matchedTotal a b junk fuel alo m.1 blo m.2.1 +
        matchedTotal a b junk fuel (m.1 + m.2.2) ahi (m.2.1 + m.2.2) bhi

/-- The `title_similarity` helper of `deduplicate_articles`:
`SequenceMatcher(None, title1, title2).ratio()`, i.e. `2*M / (len(a)+len(b))`,
and `1` when both strings are empty (CPython's `_calculate_ratio`). -/
def title_similarity (sa sb : String) : ℚ :=
  let a := sa.toList
  let b := sb.toList
  let m := matchedTotal a b (autoJunk b) (a.length + b.length + 1) 0 a.length 0 b.length
  if a.length + b.length = 0 then 1 else (2 * m : ℚ) / ((a.length : ℚ) + (b.length : ℚ))

/-! ## Deduplicator (`deduplicate_articles`, monitor_russian_media.py) -/

/-- The normalised title used by the deduplicator:
`article.get('title', '').lower().strip()`. -/
def titleNorm (a : Article) : String := (pyLower a.title).trim

/-- The exact-URL duplicate test: `url and url in seen_urls`. -/
def urlDup (seenUrls : List String) (a : Article) : Prop :=
  a.link ≠ "" ∧ a.link ∈ seenUrls

instance (s : List String) (a : Article) : Decidable (urlDup s a) :=
  inferInstanceAs (Decidable (a.link ≠ "" ∧ a.link ∈ s))

/-- The fuzzy-title duplicate test: the title is non-empty and some
previously seen title has similarity ratio above `0.85` (the loop with
`break` in the source decides exactly this existential). -/
def titleDup (seenTitles : List String) (a : Article) : Prop :=
  titleNorm a ≠ "" ∧ ∃ t ∈ seenTitles, 85 / 100 < title_similarity (titleNorm a) t

instance (s : List String) (a : Article) : Decidable (titleDup s a) :=
  inferInstanceAs (Decidable (_ ∧ ∃ t ∈ s, _))

/-- The loop body of `deduplicate_articles`, with the two `seen` collections
threaded explicitly: a URL duplicate or fuzzy-title duplicate is dropped and
counted; otherwise the article is kept and its non-empty URL/title recorded. -/
def dedupGo : List String → List String → List Article → List Article × Nat
  | _, _, [] => ([], 0)
  | seenUrls, seenTitles, a :: rest =>
    if urlDup seenUrls a then
      let r := dedupGo seenUrls seenTitles rest
      (r.1, r.2 + 1)
    else if titleDup seenTitles a then
      let r := dedupGo seenUrls seenTitles rest
      (r.1, r.2 + 1)
    else
      let r := dedupGo
        (if a.link ≠ "" then seenUrls ++ [a.link] else seenUrls)
        (if titleNorm a ≠ "" then seenTitles ++ [titleNorm a] else seenTitles)
        rest
      (a :: r.1, r.2)

/-- `deduplicate_articles(articles)` returns `(unique_articles, duplicates)`. -/
def deduplicate_articles (articles : List Article) : List Article × Nat :=
  dedupGo [] [] articles

/-! ## Temporal Context Sampler (`sample_articles`, load_historical_context.py) -/

/-- Python `int()` applied to a (here exactly represented) float: truncation
towards zero. -/
def pyInt (q : ℚ) : ℤ := if 0 ≤ q then ⌊q⌋ else ⌈q⌉

/-- The `target_count` computation of `sample_articles`:
`int(len(articles) * sample_rate)`, capped by `max_articles` when the latter
is truthy (`if max_articles:` is falsy both for `None` and for `0`). -/
def targetCount (len : ℕ) (rate : ℚ) (om : Option ℤ) : ℤ :=
  let t0 : ℤ := pyInt ((len : ℚ) * rate)
  match om with
  | some m => if m ≠ 0 then min t0 m else t0
  | none => t0

/-- `sample_articles(articles, sample_rate, max_articles)`.  `none` for
`max_articles` is Python's `None`; a result of `none` models the
`ZeroDivisionError` raised by `step = len(articles) / target_count` when the
computed target count is zero for a non-empty list. -/
def sample_articles {α : Type} [Inhabited α] (articles : List α) (sample_rate : ℚ)
    (max_articles : Option ℤ) : Option (List α) :=
  if articles.isEmpty then some []
  else
    let target : ℤ := targetCount articles.length sample_rate max_articles
    if (articles.length : ℤ) ≤ target then some articles
    else if target = 0 then none
    else
      some ((List.range target.toNat).map
        (fun (i : ℕ) =>
          articles.getD (pyInt ((i : ℚ) * ((articles.length : ℚ) / (target : ℚ)))).toNat default))

/-! ## Tokenisation

`monitor_russian_media.extract_keywords` tokenises with
`re.findall(r'\b\w{4,}\b', text.lower())`; `advanced_keywords.tokenize`
additionally strips HTML tags, URLs and HTML entities first.  A
`\b\w{4,}\b` match is exactly a maximal run of word characters of length at
least 4; `\w` is modelled over ASCII as alphanumeric-or-underscore. -/

/-- ASCII model of the regex class `\w`. -/
def isWordChar (c : Char) : Bool := c.isAlphanum || c = '_'

/-- Maximal runs of word characters (the reversed current run is threaded as
the accumulator). -/
def wordRunsGo : List Char → List Char → List (List Char)
  | [], cur => if cur.isEmpty then [] else [cur.reverse]
  | c :: rest, cur =>
    if isWordChar c then wordRunsGo rest (c :: cur)
    else if cur.isEmpty then wordRunsGo rest []
    else cur.reverse :: wordRunsGo rest []

/-- `re.findall(r'\b\w{4,}\b', ·)` over a character list. -/
def wordsOfChars (cs : List Char) : List String :=
  ((wordRunsGo cs []).filter (fun r => 4 ≤ r.length)).map String.mk

/-- `re.sub(r'<[^>]+>', ' ', ·)`: replace `<`, one or more non-`>`
characters, `>` by a space (fuel-driven scan; the fuel `cs.length` always
suffices since each step consumes at least one character). -/
def stripTagsGo : Nat → List Char → List Char
  | 0, l => l
  | _, [] => []
  | fuel + 1, c :: rest =>
    if c = '<' then
      let pre := rest.takeWhile (fun x => x ≠ '>')
      if !pre.isEmpty && pre.length < rest.length then
        ' ' :: stripTagsGo fuel (rest.drop (pre.length + 1))
      else c :: stripTagsGo fuel rest
    else c :: stripTagsGo fuel rest

/-- Replace every match of `pfx` followed by one or more non-whitespace
characters (`\S+`) by a space: used for `https?://\S+` and `www\.\S+`. -/
def stripSchemeGo (pfxs : List (List Char)) : Nat → List Char → List Char
  | 0, l => l
  | _, [] => []
  | fuel + 1, c :: rest =>
    match pfxs.find? (fun p => (c :: rest).take p.length = p) with
    | some p =>
      let tl := (c :: rest).drop p.length
      let run := tl.takeWhile (fun x => !x.isWhitespace)
      if !run.isEmpty then ' ' :: stripSchemeGo pfxs fuel (tl.drop run.length)
      else c :: stripSchemeGo pfxs fuel rest
    | none => c :: stripSchemeGo pfxs fuel rest

/-- `re.sub(r'&\w+;', ' ', ·)`. -/
def stripEntitiesGo : Nat → List Char → List Char
  | 0, l => l
  | _, [] => []
  | fuel + 1, c :: rest =>
    if c = '&' then
      let run := rest.takeWhile isWordChar
      if !run.isEmpty && rest.getD run.length ' ' = ';' && run.length < rest.length then
        ' ' :: stripEntitiesGo fuel (rest.drop (run.length + 1))
      else c :: stripEntitiesGo fuel rest
    else c :: stripEntitiesGo fuel rest

/-- `advanced_keywords.tokenize`: lower-case, strip HTML tags, `http(s)` and
`www` URLs and HTML entities, then extract words of 4 or more characters. -/
def tokenize (text : String) : List String :=
  let cs := (pyLower text).toList
  let cs := stripTagsGo cs.length cs
  let cs := stripSchemeGo ["https://".toList, "http://".toList] cs.length cs
  let cs := stripSchemeGo ["www.".toList] cs.length cs
  let cs := stripEntitiesGo cs.length cs
  wordsOfChars cs

/-- The year filter `re.match(r'^(19|20)\d{2}$', w)`. -/
def isYearTok (w : String) : Bool :=
  w.length = 4 && (w.startsWith "19" || w.startsWith "20") && w.toList.all Char.isDigit

/-- Python `w.isdigit()` (ASCII digits). -/
def isNumTok (w : String) : Bool := !w.isEmpty && w.toList.all Char.isDigit

/-- The stopword set of `extract_keywords` in `monitor_russian_media.py`. -/
def monitorStopwords : List String :=
  ["this", "that", "with", "from", "have", "been", "will", "said", "says",
   "more", "about", "after", "their", "which", "when", "where", "there",
   "what", "some", "than", "into", "very", "just", "over", "also", "only",
   "many", "most", "such", "other", "would", "could", "should", "these",
   "those", "them", "then", "both", "each", "does", "were", "make", "made",
   "russia", "russian", "moscow", "kremlin", "media", "tass", "reported",
   "reports", "according", "statement", "official", "officials", "news",
   "world", "national", "international", "chief", "head", "minister",
   "president", "government", "country", "state", "told", "plan",
   "plans", "year", "years", "talks", "meeting", "held", "announced",
   "military", "report", "full", "political", "economic", "social",
   "foreign", "domestic", "federal", "regional", "local", "global"]

/-- The stopword set of `extract_tfidf_keywords` in `advanced_keywords.py`
(the monitor set plus the news-specific block). -/
def advStopwords : List String :=
  monitorStopwords ++
  ["article", "articles", "story", "stories", "read", "preview", "https",
   "http", "link", "click", "here", "view", "watch", "video", "photo",
   "image", "source", "sources", "details", "information", "update",
   "updates", "breaking", "latest", "continue", "reading", "part"]

/-- The smaller stopword set of `extract_bigram_tfidf`. -/
def bigramStopwords : List String :=
  ["this", "that", "with", "from", "have", "been", "will", "said", "says",
   "more", "about", "after", "their", "which", "when", "where", "there",
   "russia", "russian", "moscow", "kremlin", "media", "tass", "reported",
   "military", "report", "political", "official",
   "article", "articles", "story", "stories", "read", "preview", "https",
   "http", "link", "click", "here", "view", "watch", "full", "continue"]

/-- Adjacent-pair bigrams over a raw token list, skipping any pair whose
member is a stopword, a year or a number — the loop shared verbatim by
`extract_keywords` and `extract_bigram_tfidf` (modulo the stopword set). -/
def mkBigrams (stop : List String) (words : List String) : List String :=
  (words.zip words.tail).filterMap (fun p =>
    if stop.contains p.1 || stop.contains p.2 || isYearTok p.1 || isYearTok p.2 ||
        isNumTok p.1 || isNumTok p.2
    then none else some (p.1 ++ " " ++ p.2))

/-- `monitor_russian_media.extract_keywords(text)`: filtered unigrams and
bigrams over `\b\w{4,}\b` tokens of the lower-cased text, bigrams first. -/
def extract_keywords (text : String) : List String :=
  let words := wordsOfChars (pyLower text).toList
  let keywords := words.filter (fun w =>
    !monitorStopwords.contains w && !isYearTok w && !isNumTok w)
  mkBigrams monitorStopwords words ++ keywords

/-! ## Corpus Scorer (advanced_keywords.py)

`extract_tfidf_keywords` and `extract_bigram_tfidf` share one TF-IDF core
(duplicated verbatim in the source); only the per-article document
construction differs.  `math.log` scores live in `ℝ`, so everything
downstream of a score is `noncomputable`; the document statistics stay
computable. -/

/-- The token sequence `extract_tfidf_keywords` builds for one article:
tokens of `f"{title} {summary}"` minus stopwords, years and numbers. -/
def docWordsU (a : Article) : List String :=
  (tokenize (a.title ++ " " ++ a.summary)).filter (fun w =>
    !advStopwords.contains w && !isYearTok w && !isNumTok w)

/-- The bigram sequence `extract_bigram_tfidf` builds for one article. -/
def docWordsB (a : Article) : List String :=
  mkBigrams bigramStopwords (tokenize (a.title ++ " " ++ a.summary))

/-- The `documents` list of `extract_tfidf_keywords`. -/
def documentsU (articles : List Article) : List (List String) := articles.map docWordsU

/-- The `documents` list of `extract_bigram_tfidf`. -/
def documentsB (articles : List Article) : List (List String) := articles.map docWordsB

/-- Document frequency `df[w]`: the number of documents containing `w` at
least once (the source iterates over `set(doc)`, i.e. set semantics). -/
def dfCount (docs : List (List String)) (w : String) : ℕ :=
  docs.countP (fun d => decide (w ∈ d))

/-- Membership of `w` in the df-filtered dict: `w` occurs somewhere and its
document frequency reaches `min_df` (the source only ever queries words that
occur in some document, for which this is exactly `word in df`). -/
def dfKeep (docs : List (List String)) (minDf : ℤ) (w : String) : Bool :=
  decide (minDf ≤ (dfCount docs w : ℤ))

/-- Whether the df-filtered dict is non-empty (`if not df: return []`). -/
def dfSurvivor (docs : List (List String)) (minDf : ℤ) : Bool :=
  docs.flatten.any (fun w => dfKeep docs minDf w)

/-- First-occurrence deduplication: the iteration order of
`collections.Counter(doc)` (insertion order = first occurrence). -/
def firstDedup {α : Type} [DecidableEq α] (l : List α) : List α :=
  l.foldl (fun acc x => if x ∈ acc then acc else acc ++ [x]) []

/-- One term's TF·IDF contribution from one document:
`(count/len(doc)) * log(num_docs/df[word])`, with the `len(doc) > 0` guard
of the source. -/
noncomputable def tfidfTerm (docs : List (List String)) (doc : List String)
    (w : String) : ℝ :=
  (if 0 < doc.length then ((doc.count w : ℝ) / (doc.length : ℝ)) else 0) *
    Real.log ((docs.length : ℝ) / (dfCount docs w : ℝ))

/-- Add `v` to the value of key `w` in an insertion-ordered association list
(the `defaultdict(float)` update `tfidf_scores[w] += v`). -/
noncomputable def addVal (l : List (String × ℝ)) (w : String) (v : ℝ) :
    List (String × ℝ) :=
  match l with
  | [] => [(w, v)]
  | (k, x) :: rest => if k = w then (k, x + v) :: rest else (k, x) :: addVal rest w v

/-- The accumulation loop of the TF-IDF core: for each document and each
distinct term of it that survived the df filter, add its TF·IDF
contribution. -/
noncomputable def tfidfScores (docs : List (List String)) (minDf : ℤ) :
    List (String × ℝ) :=
  docs.foldl (fun acc doc =>
    (firstDedup doc).foldl (fun acc2 w =>
      if dfKeep docs minDf w then addVal acc2 w (tfidfTerm docs doc w) else acc2) acc) []

/-- `sorted(tfidf_scores.items(), key=lambda x: x[1], reverse=True)`: a
stable descending sort on the score. -/
noncomputable def rankDesc (l : List (String × ℝ)) : List (String × ℝ) :=
  l.mergeSort (fun p q => decide (q.2 ≤ p.2))

/-- The TF-IDF core shared (verbatim, in the source) by
`extract_tfidf_keywords` and `extract_bigram_tfidf`: empty documents or an
empty df-filtered dict yield `[]`, otherwise the top `top_n` terms by
accumulated score. -/
noncomputable def tfidfPipeline (docs : List (List String)) (top_n : ℕ)
    (min_df : ℤ) : List (String × ℝ) :=
  if docs.isEmpty then []
  else if dfSurvivor docs min_df then (rankDesc (tfidfScores docs min_df)).take top_n
  else []

/-- `extract_tfidf_keywords(articles, top_n, min_df)`. -/
noncomputable def extract_tfidf_keywords (articles : List Article) (top_n : ℕ)
    (min_df : ℤ) : List (String × ℝ) :=
  tfidfPipeline (documentsU articles) top_n min_df

/-- `extract_bigram_tfidf(articles, top_n, min_df)`. -/
noncomputable def extract_bigram_tfidf (articles : List Article) (top_n : ℕ)
    (min_df : ℤ) : List (String × ℝ) :=
  tfidfPipeline (documentsB articles) top_n min_df

/-! ## Trending-Topic Aggregator (`identify_trending_stories`) -/

/-- A trending-story record.  The fallback (non-TF-IDF) branch builds dicts
without the two score fields, modelled here as `none`. -/
structure TrendingTopic where
  keyword : String
  source_count : ℕ
  tfidf_score : Option ℝ
  combined_score : Option ℝ
  articles : List Article

/-- The lower-cased scan text `(article['title'] + ' ' + article['summary']).lower()`. -/
def textLower (a : Article) : String := pyLower (a.title ++ " " ++ a.summary)

/-- Python dict assignment on an insertion-ordered association list: update
in place, or append a new key at the end. -/
def assocPut {β : Type} (l : List (String × β)) (k : String) (v : β) :
    List (String × β) :=
  match l with
  | [] => [(k, v)]
  | (k0, v0) :: rest => if k0 = k then (k0, v) :: rest else (k0, v0) :: assocPut rest k v

/-- `keyword_counts[k].append(a)` on a `defaultdict(list)`. -/
def pushArt (l : List (String × List Article)) (k : String) (a : Article) :
    List (String × List Article) :=
  match l with
  | [] => [(k, [a])]
  | (k0, v0) :: rest =>
    if k0 = k then (k0, v0 ++ [a]) :: rest else (k0, v0) :: pushArt rest k a

/-- The TF-IDF branch's term→article map: for each article in order, each
term (in `tfidf_terms` order) contained as a substring of the lower-cased
title+summary text is credited with the article. -/
def keywordCountsOver (terms : List String) (articles : List Article) :
    List (String × List Article) :=
  articles.foldl (fun kc a =>
    terms.foldl (fun kc2 term =>
      if term.toList <:+: (textLower a).toList then pushArt kc2 term a else kc2) kc) []

/-- The fallback branch's term→article map: each article is credited to each
of its distinct extracted keywords (`for keyword in set(keywords)`; CPython's
set iteration order is modelled as first-occurrence order — no claim below
depends on the order). -/
def keywordCountsBasic (articles : List Article) : List (String × List Article) :=
  articles.foldl (fun kc a =>
    (firstDedup (extract_keywords (a.title ++ " " ++ a.summary))).foldl
      (fun kc2 kw => pushArt kc2 kw a) kc) []

/-- Count of distinct sources: `len(set(a['source'] for a in articles))`. -/
def distinctSources (arts : List Article) : ℕ :=
  (firstDedup (arts.map (fun a => a.source))).length

/-- Python's `round(x, 4)`, idealised over `ℝ` (CPython rounds the binary
float half-to-even; the difference affects none of the claims). -/
noncomputable def round4 (x : ℝ) : ℝ := ((round (x * 10000) : ℤ) : ℝ) / 10000

/-- The normalised `tfidf_terms` dict: unigram and bigram rankings merged and
divided by the joint maximum score (`1` when both rankings are empty). -/
noncomputable def tfidfTermsOf (articles : List Article) : List (String × ℝ) :=
  let all0 := extract_tfidf_keywords articles 50 2 ++ extract_bigram_tfidf articles 30 2
  let maxScore : ℝ :=
    match all0 with
    | [] => 1
    | x :: rest => (rest.map Prod.snd).foldl max x.2
  all0.foldl (fun acc p => assocPut acc p.1 (p.2 / maxScore)) []

/-- The TF-IDF branch of `identify_trending_stories`: terms corroborated by
at least 3 distinct sources become topics scored by
`normalised tf-idf × source count`, sorted descending, top 10, with up to 10
representative articles each. -/
noncomputable def identifyTrendingTfidf (articles : List Article) : List TrendingTopic :=
  let terms := tfidfTermsOf articles
  let kc := keywordCountsOver (terms.map Prod.fst) articles
  let trending := kc.filterMap (fun p =>
    let srcs := distinctSources p.2
    if 3 ≤ srcs then
      let ts : ℝ := (terms.lookup p.1).getD 0
      some { keyword := p.1, source_count := srcs,
             tfidf_score := some (round4 ts),
             combined_score := some (round4 (ts * (srcs : ℝ))),
             articles := p.2.take 10 }
    else none)
  (trending.mergeSort (fun p q =>
    decide (q.combined_score.getD 0 ≤ p.combined_score.getD 0))).take 10

/-- The fallback branch of `identify_trending_stories`: source-count
corroboration only.  The guard `keyword not in trending or len(sources) > …`
from the source is kept literally (its keys are in fact always fresh). -/
def identifyTrendingBasic (articles : List Article) : List TrendingTopic :=
  let kc := keywordCountsBasic articles
  let trending := kc.foldl (fun tr p =>
    let srcs := distinctSources p.2
    if 3 ≤ srcs then
      let ok :=
        match tr.lookup p.1 with
        | none => true
        | some t => decide (distinctSources t.articles < srcs)
      if ok then
        assocPut tr p.1
          { keyword := p.1, source_count := srcs, tfidf_score := none,
            combined_score := none, articles := p.2.take 10 }
      else tr
    else tr) []
  ((trending.map Prod.snd).mergeSort (fun p q =>
    decide (q.source_count ≤ p.source_count))).take 10

/-- `identify_trending_stories(all_articles, use_tfidf)` (the module import
of the TF-IDF engine succeeds, so `TFIDF_AVAILABLE` is `True` and the branch
is decided by `use_tfidf` alone). -/
noncomputable def identify_trending_stories (articles : List Article)
    (use_tfidf : Bool) : List TrendingTopic :=
  if use_tfidf then identifyTrendingTfidf articles else identifyTrendingBasic articles

/-! ## Concrete articles used by counterexamples and witnesses -/

/-- A generic single article (used as a failing input for the sampler). -/
def sampleOne : Article := ⟨"TASS", "Example headline", "http://e/a", "", "body text"⟩

/-- Counterexample articles for the deduplicator: `q2` shares `q1`'s URL
(so it is dropped by the exact-URL rule before its title is recorded), and
`q3`'s title is nearly identical to `q2`'s but unrelated to `q1`'s. -/
def q1 : Article := ⟨"s1", "Bix", "http://x/1", "", ""⟩

/-- See `q1`. -/
def q2 : Article := ⟨"s2", "Authors", "http://x/1", "", ""⟩

/-- See `q1`. -/
def q3 : Article := ⟨"s3", "Authorz", "http://x/3", "", ""⟩

/-- Counterexample articles for the aggregator's fallback mode: three
distinct sources whose text contains the tokens `alpha` and `beta` separated
by a comma, so the extracted bigram `"alpha beta"` is not a substring of the
text. -/
def b1 : Article := ⟨"s1", "Alpha, beta", "http://x/4", "", ""⟩

/-- See `b1`. -/
def b2 : Article := ⟨"s2", "Alpha, beta", "http://x/5", "", ""⟩

/-- See `b1`. -/
def b3 : Article := ⟨"s3", "Alpha, beta", "http://x/6", "", ""⟩

/-- Witness article for the corpus scorer: its only token is `alpha`
(twice), so `[wA, wA]` is a two-document corpus in which every term has
document frequency equal to the number of documents. -/
def wA : Article := ⟨"s1", "alpha", "http://e/1", "", "alpha"⟩

/-! ## C10: the deduplicator partitions its input -/

/-- Every article of the input is kept once or counted once, and the kept
articles form a subsequence of the input. -/
theorem dedupGo_count_sublist (xs : List Article) :
    ∀ u t : List String,
      (dedupGo u t xs).1.length + (dedupGo u t xs).2 = xs.length ∧
        List.Sublist (dedupGo u t xs).1 xs := by
  induction xs with
  | nil => intro u t; simp [dedupGo]
  | cons a rest ih =>
    intro u t
    by_cases h1 : urlDup u a
    · obtain ⟨hl, hs⟩ := ih u t
      simp only [dedupGo, if_pos h1, List.length_cons]
      exact ⟨by omega, hs.cons a⟩
    · by_cases h2 : titleDup t a
      · obtain ⟨hl, hs⟩ := ih u t
        simp only [dedupGo, if_neg h1, if_pos h2, List.length_cons]
        exact ⟨by omega, hs.cons a⟩
      · obtain ⟨hl, hs⟩ := ih (if a.link ≠ "" then u ++ [a.link] else u)
          (if titleNorm a ≠ "" then t ++ [titleNorm a] else t)
        simp only [dedupGo, if_neg h1, if_neg h2, List.length_cons]
        exact ⟨by omega, hs.cons₂ a⟩

/-- C10: `deduplicate_articles xs = (ys, n)` has `n = |xs| - |ys|`
(equivalently `|ys| + n = |xs|`), and `ys` is a subsequence of `xs`, so each
input article is either kept exactly once, in original relative order, or
counted exactly once. -/
theorem deduplicate_articles_partition (xs : List Article) :
    (deduplicate_articles xs).2 = xs.length - (deduplicate_articles xs).1.length ∧
      (deduplicate_articles xs).1.length + (deduplicate_articles xs).2 = xs.length ∧
      List.Sublist (deduplicate_articles xs).1 xs := by
  obtain ⟨hl, hs⟩ := dedupGo_count_sublist xs [] []
  simp only [deduplicate_articles]
  exact ⟨by omega, hl, hs⟩

/-! ## C5: the deduplicator is idempotent -/

/-- Running the dedup loop on its own output, from the same seen-state,
changes nothing and counts no duplicate. -/
theorem dedupGo_idem (xs : List Article) :
    ∀ u t : List String, dedupGo u t (dedupGo u t xs).1 = ((dedupGo u t xs).1, 0) := by
  induction xs with
  | nil => intro u t; simp [dedupGo]
  | cons a rest ih =>
    intro u t
    by_cases h1 : urlDup u a
    · simp only [dedupGo, if_pos h1]; exact ih u t
    · by_cases h2 : titleDup t a
      · simp only [dedupGo, if_neg h1, if_pos h2]; exact ih u t
      · simp only [dedupGo, if_neg h1, if_neg h2]
        rw [ih]

/-- C5: `deduplicate_articles` is idempotent — on its own output it keeps
everything and reports zero duplicates. -/
theorem deduplicate_articles_idempotent (xs : List Article) :
    deduplicate_articles (deduplicate_articles xs).1 =
      ((deduplicate_articles xs).1, 0) :=
  dedupGo_idem xs [] []

/-! ## C4: fuzzy-title dedup compares against kept titles only -/

/-- The pairwise relation the deduplicator's output satisfies: a later kept
article's normalised title never fuzzy-matches an earlier kept one's. -/
def DissimilarKept (a b : Article) : Prop :=
  titleNorm a ≠ "" → titleNorm b ≠ "" →
    ¬ (85 / 100 < title_similarity (titleNorm b) (titleNorm a))

/-- Kept articles neither fuzzy-match any already-seen title nor each other. -/
theorem dedupGo_pairwise (xs : List Article) :
    ∀ u t : List String,
      (∀ b ∈ (dedupGo u t xs).1, ∀ s ∈ t,
          titleNorm b ≠ "" → ¬ (85 / 100 < title_similarity (titleNorm b) s)) ∧
        (dedupGo u t xs).1.Pairwise DissimilarKept := by
  induction xs with
  | nil => intro u t; simp [dedupGo]
  | cons a rest ih =>
    intro u t
    by_cases h1 : urlDup u a
    · simpa only [dedupGo, if_pos h1] using ih u t
    · by_cases h2 : titleDup t a
      · simpa only [dedupGo, if_neg h1, if_pos h2] using ih u t
      · simp only [dedupGo, if_neg h1, if_neg h2]
        set t' := if titleNorm a ≠ "" then t ++ [titleNorm a] else t with ht'
        obtain ⟨hseen, hpair⟩ := ih (if a.link ≠ "" then u ++ [a.link] else u) t'
        have hsub : t ⊆ t' := by
          intro s hs
          by_cases hta : titleNorm a = "" <;> simp [ht', hta, hs]
        refine ⟨?_, ?_⟩
        · intro b hb s hs hbne
          rcases List.mem_cons.mp hb with rfl | hb
          · intro hgt
            exact h2 ⟨hbne, s, hs, hgt⟩
          · exact hseen b hb s (hsub hs) hbne
        · refine List.Pairwise.cons ?_ hpair
          intro b hb hane hbne
          have hat : titleNorm a ∈ t' := by simp [ht', hane]
          exact hseen b hb (titleNorm a) hat hbne

/-- C4 (amended): the deduplicator drops any article whose lower-cased,
trimmed title has similarity ratio above `0.85` with the title of an earlier
**kept** article — equivalently, its output is pairwise dissimilar.  (The
original claim, "against the title of any earlier article, whether kept or
dropped", is refuted by `deduplicate_articles_drops_only_vs_kept_titles`:
titles of dropped articles are never recorded.) -/
theorem deduplicate_articles_output_dissimilar (xs : List Article) :
    (deduplicate_articles xs).1.Pairwise DissimilarKept :=
  (dedupGo_pairwise xs [] []).2

/-- C4 counterexample: `q2` is dropped by the URL rule, and `q3` — whose
title has ratio `6/7 > 0.85` against `q2`'s title — is nevertheless kept,
because `q2`'s title was never recorded. -/
theorem deduplicate_articles_drops_only_vs_kept_titles :
    85 / 100 < title_similarity (titleNorm q3) (titleNorm q2) ∧
      deduplicate_articles [q1, q2, q3] = ([q1, q3], 1) := by
  constructor
  · with_unfolding_all decide
  · with_unfolding_all decide

/-! ## C2: the sampler raises `ZeroDivisionError` on small inputs -/

/-- C2 (code bug in `sample_articles`): on a single-article list with sample
rate `0.5` and no cap, `target_count = int(1 * 0.5) = 0`, and
`step = len(articles) / target_count` raises `ZeroDivisionError` (modelled as
`none`) — the code does not return normally as the claim states. -/
theorem sample_articles_divzero :
    sample_articles [sampleOne] (1 / 2) none = none := by with_unfolding_all decide

/-! ## C8: the stride-sampling bound -/

/-- Python `int` of a non-negative rational is its floor. -/
theorem pyInt_eq_floor {q : ℚ} (h : 0 ≤ q) : pyInt q = ⌊q⌋ := by
  simp [pyInt, h]

/-- The target count never exceeds `⌊len * rate⌋` for a non-negative rate. -/
theorem targetCount_le_floor (len : ℕ) (rate : ℚ) (om : Option ℤ) (hr : 0 ≤ rate) :
    targetCount len rate om ≤ ⌊(len : ℚ) * rate⌋ := by
  have h0 : (0 : ℚ) ≤ (len : ℚ) * rate := mul_nonneg (Nat.cast_nonneg len) hr
  rcases om with _ | m
  · simp [targetCount, pyInt_eq_floor h0]
  · by_cases hm : m = 0 <;> simp [targetCount, pyInt_eq_floor h0, hm, min_le_left]

/-- With a truthy cap `m`, the target count is at most `m`. -/
theorem targetCount_le_cap (len : ℕ) (rate : ℚ) (m : ℤ) (hm : m ≠ 0) :
    targetCount len rate (some m) ≤ m := by
  simp [targetCount, hm, min_le_right]

/-- The target count of a non-negative rate is non-negative. -/
theorem targetCount_nonneg (len : ℕ) (rate : ℚ) (m : ℤ) (hr : 0 ≤ rate) (hm : 1 ≤ m) :
    0 ≤ targetCount len rate (some m) := by
  have h0 : (0 : ℚ) ≤ (len : ℚ) * rate := mul_nonneg (Nat.cast_nonneg len) hr
  have hne : m ≠ 0 := by omega
  have hfl : (0 : ℤ) ≤ ⌊(len : ℚ) * rate⌋ := Int.floor_nonneg.mpr h0
  simp only [targetCount, pyInt_eq_floor h0, hne, if_true, ne_eq, not_false_iff]
  exact le_min hfl (by omega)

/-- The stride branch of the sampler, as an equation. -/
theorem sample_articles_stride_eq {α : Type} [Inhabited α] (xs : List α) (r : ℚ)
    (om : Option ℤ) (he : xs.isEmpty = false)
    (hlt : ¬ (xs.length : ℤ) ≤ targetCount xs.length r om)
    (hne : ¬ targetCount xs.length r om = 0) :
    sample_articles xs r om = some ((List.range (targetCount xs.length r om).toNat).map
      (fun (i : ℕ) => xs.getD
        (pyInt ((i : ℚ) * ((xs.length : ℚ) / ((targetCount xs.length r om) : ℚ)))).toNat
        default)) := by
  simp only [sample_articles, he, Bool.false_eq_true, if_false]
  rw [if_neg hlt, if_neg hne]

set_option maxHeartbeats 1000000 in
/-- The stride-sampling bound: whenever `sample_articles` returns a list, its
length is at most `len * rate`, and at most any truthy cap. -/
theorem sample_articles_length_bound {α : Type} [Inhabited α] (xs : List α) (r : ℚ)
    (om : Option ℤ) (ys : List α) (hr0 : 0 ≤ r)
    (hm : ∀ m, om = some m → 1 ≤ m)
    (h : sample_articles xs r om = some ys) :
    (ys.length : ℚ) ≤ (xs.length : ℚ) * r ∧
      ∀ m, om = some m → (ys.length : ℤ) ≤ m := by
  have h0 : (0 : ℚ) ≤ (xs.length : ℚ) * r := mul_nonneg (Nat.cast_nonneg _) hr0
  by_cases he : xs.isEmpty
  · simp only [sample_articles, he, if_true, Option.some.injEq] at h
    subst h
    refine ⟨by simpa using h0, fun m hm2 => ?_⟩
    have h1 := hm m hm2
    simp only [List.length_nil, Nat.cast_zero]
    omega
  · simp only [sample_articles, he, Bool.false_eq_true, if_false] at h
    set tc := targetCount xs.length r om with htc
    by_cases hge : (xs.length : ℤ) ≤ tc
    · rw [if_pos hge] at h
      obtain rfl : xs = ys := by simpa using h
      have hle : tc ≤ ⌊(xs.length : ℚ) * r⌋ := targetCount_le_floor _ _ _ hr0
      constructor
      · calc (xs.length : ℚ) = ((xs.length : ℤ) : ℚ) := by push_cast; ring
          _ ≤ ((⌊(xs.length : ℚ) * r⌋ : ℤ) : ℚ) := by exact_mod_cast le_trans hge hle
          _ ≤ (xs.length : ℚ) * r := Int.floor_le _
      · intro m hm2
        subst hm2
        exact le_trans hge (targetCount_le_cap _ _ _ (by have := hm m rfl; omega))
    · rw [if_neg hge] at h
      by_cases h0t : tc = 0
      · rw [if_pos h0t] at h; exact absurd h (by simp)
      · rw [if_neg h0t] at h
        obtain rfl : _ = ys := Option.some_inj.mp h
        rw [List.length_map, List.length_range]
        have hle : tc ≤ ⌊(xs.length : ℚ) * r⌋ := targetCount_le_floor _ _ _ hr0
        have htn : (tc.toNat : ℤ) ≤ ⌊(xs.length : ℚ) * r⌋ := by
          rcases le_or_lt 0 tc with hpos | hneg
          · rwa [Int.toNat_of_nonneg hpos]
          · have : tc.toNat = 0 := Int.toNat_of_nonpos hneg.le
            rw [this]
            exact_mod_cast Int.floor_nonneg.mpr h0
        constructor
        · calc (tc.toNat : ℚ) = ((tc.toNat : ℤ) : ℚ) := by push_cast; ring
            _ ≤ ((⌊(xs.length : ℚ) * r⌋ : ℤ) : ℚ) := by exact_mod_cast htn
            _ ≤ (xs.length : ℚ) * r := Int.floor_le _
        · intro m hm2
          subst hm2
          have hm1 : 1 ≤ m := hm m rfl
          have hcap : tc ≤ m := targetCount_le_cap _ _ _ (by omega)
          rcases le_or_lt 0 tc with hpos | hneg
          · rwa [Int.toNat_of_nonneg hpos]
          · rw [Int.toNat_of_nonpos hneg.le]; omega

/-- A non-empty list is not `isEmpty`. -/
theorem isEmpty_false_of_length {α : Type} {xs : List α} {n : ℕ} (h : xs.length = n)
    (hn : n ≠ 0) : xs.isEmpty = false := by
  cases xs with
  | nil => simp at h; omega
  | cons a l => simp

/-- C8 (amended): whenever the Sampler returns (it raises when the computed
target count is zero, see `sample_articles_divzero`), it returns at most
`min(len * sample_rate, max_articles)` items — for a **positive** cap; a cap
of `0` is falsy in `if max_articles:` and is ignored, refuting the claim for
literally every cap (`sample_articles_cap_zero_unbounded`).  The two concrete
scenarios hold: 40 articles at rate `0.75` under cap `100` yield exactly 30,
and 500 articles at rate `0.25` with cap `25` yield exactly 25. -/
theorem sample_articles_stride_bound :
    (∀ (xs : List Article) (r : ℚ) (om : Option ℤ) (ys : List Article),
        0 ≤ r → r ≤ 1 → (∀ m, om = some m → 1 ≤ m) →
        sample_articles xs r om = some ys →
        (ys.length : ℚ) ≤ (xs.length : ℚ) * r ∧
          ∀ m, om = some m → (ys.length : ℤ) ≤ m) ∧
      (∀ xs : List Article, xs.length = 40 →
        ∃ ys, sample_articles xs (3 / 4) (some 100) = some ys ∧ ys.length = 30) ∧
      (∀ xs : List Article, xs.length = 500 →
        ∃ ys, sample_articles xs (1 / 4) (some 25) = some ys ∧ ys.length = 25) := by
  refine ⟨fun xs r om ys hr0 _ hm h => sample_articles_length_bound xs r om ys hr0 hm h,
    fun xs hlen => ?_, fun xs hlen => ?_⟩
  · have he := isEmpty_false_of_length hlen (by norm_num)
    have htc : targetCount xs.length (3 / 4) (some 100) = 30 := by
      rw [hlen]
      have h40 : ((40 : ℕ) : ℚ) * (3 / 4) = 30 := by norm_num
      simp only [targetCount, h40, pyInt_eq_floor (by norm_num : (0 : ℚ) ≤ 30)]
      norm_num
    exact ⟨_, sample_articles_stride_eq xs (3 / 4) (some 100) he
        (by rw [htc, hlen]; norm_num) (by rw [htc]; norm_num),
      by rw [List.length_map, List.length_range, htc]; rfl⟩
  · have he := isEmpty_false_of_length hlen (by norm_num)
    have htc : targetCount xs.length (1 / 4) (some 25) = 25 := by
      rw [hlen]
      have h500 : ((500 : ℕ) : ℚ) * (1 / 4) = 125 := by norm_num
      simp only [targetCount, h500, pyInt_eq_floor (by norm_num : (0 : ℚ) ≤ 125)]
      norm_num
    exact ⟨_, sample_articles_stride_eq xs (1 / 4) (some 25) he
        (by rw [htc, hlen]; norm_num) (by rw [htc]; norm_num),
      by rw [List.length_map, List.length_range, htc]; rfl⟩

/-! ## List helpers for the fold invariants -/

/-- Members of `firstDedup l` are members of `l`. -/
theorem mem_firstDedup {α : Type} [DecidableEq α] {x : α} {l : List α}
    (h : x ∈ firstDedup l) : x ∈ l := by
  suffices hgen : ∀ (l : List α) (acc : List α),
      x ∈ l.foldl (fun acc y => if y ∈ acc then acc else acc ++ [y]) acc →
      x ∈ acc ∨ x ∈ l by
    rcases hgen l [] h with h0 | h0
    · simp at h0
    · exact h0
  intro l
  induction l with
  | nil => intro acc h; exact Or.inl h
  | cons y l ih =>
    intro acc h
    rcases ih _ h with h0 | h0
    · by_cases hy : y ∈ acc
      · simp only [hy, if_true] at h0; exact Or.inl h0
      · simp only [hy, if_false] at h0
        rcases List.mem_append.mp h0 with h1 | h1
        · exact Or.inl h1
        · simp at h1; subst h1; exact Or.inr (List.mem_cons_self _ _)
    · exact Or.inr (List.mem_cons_of_mem _ h0)

/-- `List.any` only depends on the function's values on members. -/
theorem listAnyCongr {α : Type} {l : List α} {f g : α → Bool}
    (h : ∀ x ∈ l, f x = g x) : l.any f = l.any g := by
  induction l with
  | nil => rfl
  | cons a l ih =>
    simp only [List.any_cons, h a (List.mem_cons_self a l)]
    rw [ih (fun x hx => h x (List.mem_cons_of_mem a hx))]

/-- `List.foldl` only depends on the function's values at members. -/
theorem foldlCongrMem {α β : Type} {l : List α} {f g : β → α → β}
    (h : ∀ b : β, ∀ x ∈ l, f b x = g b x) : ∀ b0, l.foldl f b0 = l.foldl g b0 := by
  induction l with
  | nil => intro b0; rfl
  | cons a l ih =>
    intro b0
    simp only [List.foldl_cons, h b0 a (List.mem_cons_self a l)]
    exact ih (fun b x hx => h b x (List.mem_cons_of_mem a hx)) _

/-- A non-empty prefix of a non-empty list is non-empty. -/
theorem take_ne_nil {α : Type} {l : List α} (h : l ≠ []) {n : ℕ} (hn : n ≠ 0) :
    l.take n ≠ [] := by
  cases l with
  | nil => exact absurd rfl h
  | cons a l =>
    cases n with
    | zero => exact absurd rfl hn
    | succ n => simp

/-! ## Invariants of the TF-IDF score table -/

/-- The invariant every entry of `tfidf_scores` satisfies: its key passed
the df filter, its value is a non-negative sum, and the value is zero
whenever the key occurs in every document (zero IDF). -/
def ScoreOK (docs : List (List String)) (minDf : ℤ) (p : String × ℝ) : Prop :=
  dfKeep docs minDf p.1 = true ∧ 0 ≤ p.2 ∧
    (dfCount docs p.1 = docs.length → p.2 = 0)

/-- `addVal` preserves a key-value invariant closed under addition. -/
theorem addVal_forall {Q : String → ℝ → Prop} {w : String} {v : ℝ}
    (hadd : ∀ k x y, Q k x → Q k y → Q k (x + y)) :
    ∀ l : List (String × ℝ), (∀ p ∈ l, Q p.1 p.2) → Q w v →
      ∀ p ∈ addVal l w v, Q p.1 p.2 := by
  intro l
  induction l with
  | nil =>
    intro _ hv p hp
    simp only [addVal, List.mem_singleton] at hp
    subst hp; exact hv
  | cons q rest ih =>
    intro hl hv p hp
    obtain ⟨k, x⟩ := q
    by_cases hk : k = w
    · simp only [addVal, if_pos hk] at hp
      rcases List.mem_cons.mp hp with rfl | hp
      · exact hadd k x v (hl (k, x) (List.mem_cons_self _ _)) (hk ▸ hv)
      · exact hl p (List.mem_cons_of_mem _ hp)
    · simp only [addVal, if_neg hk] at hp
      rcases List.mem_cons.mp hp with rfl | hp
      · exact hl (k, x) (List.mem_cons_self _ _)
      · exact ih (fun r hr => hl r (List.mem_cons_of_mem _ hr)) hv p hp

/-- The document frequency of a term occurring in some document is positive. -/
theorem dfCount_pos {docs : List (List String)} {doc : List String} {w : String}
    (hdoc : doc ∈ docs) (hw : w ∈ doc) : 0 < dfCount docs w :=
  List.countP_pos_iff.mpr ⟨doc, hdoc, by simpa using hw⟩

/-- The document frequency never exceeds the number of documents. -/
theorem dfCount_le (docs : List (List String)) (w : String) :
    dfCount docs w ≤ docs.length :=
  List.countP_le_length _

/-- One TF·IDF contribution of a term occurring in a document is
non-negative, and zero when the term occurs in every document. -/
theorem tfidfTerm_ok {docs : List (List String)} {doc : List String} {w : String}
    (hdoc : doc ∈ docs) (hw : w ∈ doc) :
    0 ≤ tfidfTerm docs doc w ∧
      (dfCount docs w = docs.length → tfidfTerm docs doc w = 0) := by
  have hpos : 0 < dfCount docs w := dfCount_pos hdoc hw
  have hle : dfCount docs w ≤ docs.length := dfCount_le docs w
  have hlog : 0 ≤ Real.log ((docs.length : ℝ) / (dfCount docs w : ℝ)) := by
    apply Real.log_nonneg
    rw [le_div_iff₀ (by exact_mod_cast hpos), one_mul]
    exact_mod_cast hle
  constructor
  · unfold tfidfTerm
    apply mul_nonneg _ hlog
    split_ifs with hlen
    · positivity
    · exact le_refl 0
  · intro heq
    have hN : 0 < docs.length := heq ▸ hpos
    unfold tfidfTerm
    rw [heq, div_self (by exact_mod_cast hN.ne' : ((docs.length : ℝ)) ≠ 0)]
    rw [Real.log_one, mul_zero]

/-- Every entry of `tfidfScores` satisfies `ScoreOK`. -/
theorem tfidfScores_forall (docs : List (List String)) (minDf : ℤ) :
    ∀ p ∈ tfidfScores docs minDf, ScoreOK docs minDf p := by
  have hadd : ∀ k x y, ScoreOK docs minDf (k, x) → ScoreOK docs minDf (k, y) →
      ScoreOK docs minDf (k, x + y) := by
    intro k x y hx hy
    obtain ⟨hk, hx0, hxz⟩ := hx
    obtain ⟨_, hy0, hyz⟩ := hy
    have hk' : dfKeep docs minDf k = true := hk
    have hxz' : dfCount docs k = docs.length → x = 0 := hxz
    have hyz' : dfCount docs k = docs.length → y = 0 := hyz
    refine ⟨hk', add_nonneg hx0 hy0, fun h => ?_⟩
    show x + y = 0
    rw [hxz' h, hyz' h, add_zero]
  have haddp : ∀ k x y, (fun a b => ScoreOK docs minDf (a, b)) k x →
      (fun a b => ScoreOK docs minDf (a, b)) k y →
      (fun a b => ScoreOK docs minDf (a, b)) k (x + y) := hadd
  have hinner : ∀ (doc : List String), doc ∈ docs →
      ∀ (ws : List String), (∀ w ∈ ws, w ∈ doc) →
      ∀ (acc : List (String × ℝ)), (∀ p ∈ acc, ScoreOK docs minDf p) →
      ∀ p ∈ ws.foldl (fun acc2 w =>
          if dfKeep docs minDf w then addVal acc2 w (tfidfTerm docs doc w) else acc2) acc,
        ScoreOK docs minDf p := by
    intro doc hdoc ws
    induction ws with
    | nil => intro _ acc hacc p hp; exact hacc p hp
    | cons w ws ih =>
      intro hws acc hacc p hp
      simp only [List.foldl_cons] at hp
      refine ih (fun x hx => hws x (List.mem_cons_of_mem _ hx)) _ ?_ p hp
      by_cases hkeep : dfKeep docs minDf w
      · rw [if_pos hkeep]
        have hw : w ∈ doc := hws w (List.mem_cons_self _ _)
        have hterm := tfidfTerm_ok hdoc hw
        intro q hq
        have := addVal_forall (Q := fun a b => ScoreOK docs minDf (a, b)) haddp acc
          (fun r hr => hacc r hr) ⟨hkeep, hterm.1, fun h => hterm.2 h⟩ q hq
        exact this
      · rw [if_neg hkeep]; exact hacc
  suffices hgen : ∀ (ds : List (List String)), (∀ d ∈ ds, d ∈ docs) →
      ∀ (acc : List (String × ℝ)), (∀ p ∈ acc, ScoreOK docs minDf p) →
      ∀ p ∈ ds.foldl (fun acc doc =>
          (firstDedup doc).foldl (fun acc2 w =>
            if dfKeep docs minDf w then addVal acc2 w (tfidfTerm docs doc w) else acc2) acc) acc,
        ScoreOK docs minDf p by
    intro p hp
    exact hgen docs (fun d hd => hd) [] (by simp) p hp
  intro ds
  induction ds with
  | nil => intro _ acc hacc p hp; exact hacc p hp
  | cons d ds ih =>
    intro hds acc hacc p hp
    simp only [List.foldl_cons] at hp
    refine ih (fun x hx => hds x (List.mem_cons_of_mem _ hx)) _ ?_ p hp
    exact hinner d (hds d (List.mem_cons_self _ _)) (firstDedup d)
      (fun w hw => mem_firstDedup hw) acc hacc

/-- Members of the ranked, truncated output come from the score table. -/
theorem tfidfPipeline_subset {docs : List (List String)} {top_n : ℕ} {min_df : ℤ}
    {p : String × ℝ} (hp : p ∈ tfidfPipeline docs top_n min_df) :
    p ∈ tfidfScores docs min_df := by
  unfold tfidfPipeline at hp
  split_ifs at hp with h1 h2
  · simp at hp
  · exact List.mem_mergeSort.mp (List.mem_of_mem_take hp)
  · simp at hp

/-- The ranked list is sorted by non-increasing score. -/
theorem rankDesc_sorted (l : List (String × ℝ)) :
    (rankDesc l).Pairwise (fun p q : String × ℝ => q.2 ≤ p.2) := by
  have h := @List.sorted_mergeSort (String × ℝ)
    (fun p q : String × ℝ => decide (q.2 ≤ p.2))
    (fun a b c hab hbc => by
      simp only [decide_eq_true_eq] at hab hbc ⊢
      exact le_trans hbc hab)
    (fun a b => by
      rcases le_total a.2 b.2 with h | h <;> simp [h])
    l
  exact h.imp (fun hab => by simpa using hab)

/-- The pipeline output is sorted by non-increasing score. -/
theorem tfidfPipeline_sorted (docs : List (List String)) (top_n : ℕ) (min_df : ℤ) :
    (tfidfPipeline docs top_n min_df).Pairwise (fun p q : String × ℝ => q.2 ≤ p.2) := by
  unfold tfidfPipeline
  split_ifs with h1 h2
  · exact List.Pairwise.nil
  · exact List.Pairwise.sublist (List.take_sublist _ _) (rankDesc_sorted _)
  · exact List.Pairwise.nil

/-- C8 counterexample: with the cap `max_articles = 0` — one of the caps the
claim quantifies over — `if max_articles:` is falsy, so the cap is ignored
and a full single-article list is returned even though
`min(len * rate, cap) = 0`. -/
theorem sample_articles_cap_zero_unbounded :
    sample_articles [sampleOne] 1 (some 0) = some [sampleOne] ∧
      ¬ ((([sampleOne] : List Article).length : ℚ) ≤
          min ((([sampleOne] : List Article).length : ℚ) * 1) 0) := by
  constructor
  · with_unfolding_all decide
  · norm_num

/-! ## C3: the DF-filter invariant -/

/-- Every term of the pipeline output has document frequency at least
`min_df` (set semantics: `dfCount` counts documents containing the term). -/
theorem tfidfPipeline_df (docs : List (List String)) (n : ℕ) (m : ℤ) :
    (tfidfPipeline docs n m).Forall (fun p => m ≤ (dfCount docs p.1 : ℤ)) := by
  rw [List.forall_iff_forall_mem]
  intro p hp
  have h := (tfidfScores_forall docs m) p (tfidfPipeline_subset hp)
  simpa [dfKeep] using h.1

/-- C3: every term returned by the Corpus Scorer — unigram and bigram alike —
has true document frequency (number of documents containing it at least once,
set semantics) at least `min_df`. -/
theorem corpus_scorer_df_filter (articles : List Article) (top_n : ℕ) (min_df : ℤ)
    (_hmdf : 1 ≤ min_df) :
    ((extract_tfidf_keywords articles top_n min_df).Forall fun p =>
        min_df ≤ (dfCount (documentsU articles) p.1 : ℤ)) ∧
      ((extract_bigram_tfidf articles top_n min_df).Forall fun p =>
        min_df ≤ (dfCount (documentsB articles) p.1 : ℤ)) :=
  ⟨tfidfPipeline_df (documentsU articles) top_n min_df,
   tfidfPipeline_df (documentsB articles) top_n min_df⟩

/-- C3 witness: the DF-filter invariant at the concrete two-article corpus
`[wA, wA]` with `min_df = 2`. -/
theorem corpus_scorer_df_filter_witness :
    ((extract_tfidf_keywords [wA, wA] 50 2).Forall fun p =>
        2 ≤ (dfCount (documentsU [wA, wA]) p.1 : ℤ)) ∧
      ((extract_bigram_tfidf [wA, wA] 50 2).Forall fun p =>
        2 ≤ (dfCount (documentsB [wA, wA]) p.1 : ℤ)) :=
  corpus_scorer_df_filter [wA, wA] 50 2 (by norm_num)

/-! ## C6: non-negative scores, zero IDF sinks to the bottom -/

/-- The accumulated TF-IDF score of a term: the sum, over the documents
containing it, of its per-document TF·IDF contribution (spec §4.2 step 5). -/
noncomputable def tfidfTotal (docs : List (List String)) (w : String) : ℝ :=
  (docs.map (fun doc => if w ∈ doc then tfidfTerm docs doc w else 0)).sum

/-- C6: every score returned by the Corpus Scorer is non-negative; a term
occurring in every document (df = total documents) has IDF `ln 1 = 0`, hence
accumulated score exactly `0`; the returned ranking is sorted by
non-increasing score, and wherever such a term appears in the output, its
stored score is `0` and no term after it has a positive score — it ranks at
the bottom whenever any other term scores positively. -/
theorem tfidf_zero_idf_sinks (articles : List Article) (top_n : ℕ) (min_df : ℤ)
    (t : String)
    (ht : dfCount (documentsU articles) t = (documentsU articles).length) :
    ((extract_tfidf_keywords articles top_n min_df).Forall fun p => 0 ≤ p.2) ∧
      tfidfTotal (documentsU articles) t = 0 ∧
      (extract_tfidf_keywords articles top_n min_df).Pairwise
        (fun p q : String × ℝ => q.2 ≤ p.2) ∧
      ∀ pre s post,
        extract_tfidf_keywords articles top_n min_df = pre ++ (t, s) :: post →
        s = 0 ∧ ∀ q ∈ post, q.2 ≤ 0 := by
  refine ⟨?_, ?_, tfidfPipeline_sorted _ _ _, ?_⟩
  · rw [List.forall_iff_forall_mem]
    intro p hp
    exact ((tfidfScores_forall _ _) p (tfidfPipeline_subset hp)).2.1
  · unfold tfidfTotal
    apply List.sum_eq_zero
    intro x hx
    obtain ⟨doc, hdoc, rfl⟩ := List.mem_map.mp hx
    by_cases hmem : t ∈ doc
    · rw [if_pos hmem]
      exact (tfidfTerm_ok hdoc hmem).2 ht
    · rw [if_neg hmem]
  · intro pre s post heq
    have hmem : (t, s) ∈ extract_tfidf_keywords articles top_n min_df := by
      rw [heq]; exact List.mem_append_right _ (List.mem_cons_self _ _)
    have hok := (tfidfScores_forall _ _) _ (tfidfPipeline_subset hmem)
    have hs : s = 0 := hok.2.2 ht
    refine ⟨hs, fun q hq => ?_⟩
    have hsorted := tfidfPipeline_sorted (documentsU articles) top_n min_df
    rw [show tfidfPipeline (documentsU articles) top_n min_df =
        extract_tfidf_keywords articles top_n min_df from rfl, heq] at hsorted
    have hrel := (List.pairwise_cons.mp (List.pairwise_append.mp hsorted).2.1).1 q hq
    calc q.2 ≤ s := hrel
      _ = 0 := hs

/-- C6 witness: in the two-document corpus `[wA, wA]` the term `alpha` occurs
in both documents, so all the conclusions hold at it concretely. -/
theorem tfidf_zero_idf_sinks_witness :
    ((extract_tfidf_keywords [wA, wA] 50 2).Forall fun p => 0 ≤ p.2) ∧
      tfidfTotal (documentsU [wA, wA]) "alpha" = 0 ∧
      (extract_tfidf_keywords [wA, wA] 50 2).Pairwise
        (fun p q : String × ℝ => q.2 ≤ p.2) ∧
      ∀ pre s post,
        extract_tfidf_keywords [wA, wA] 50 2 = pre ++ ("alpha", s) :: post →
        s = 0 ∧ ∀ q ∈ post, q.2 ≤ 0 :=
  tfidf_zero_idf_sinks [wA, wA] 50 2 "alpha" (by with_unfolding_all decide)

/-! ## C7: empty inputs and empty filters give empty results -/

/-- An empty df-filtered dict makes the pipeline return `[]`. -/
theorem tfidfPipeline_no_survivor {docs : List (List String)} {n : ℕ} {m : ℤ}
    (h : dfSurvivor docs m = false) : tfidfPipeline docs n m = [] := by
  unfold tfidfPipeline
  split_ifs with h1 h2
  · rfl
  · rw [h] at h2; exact absurd h2 (by simp)
  · rfl

/-- C7: the Corpus Scorer and the Aggregator return empty collections on an
empty article list (in both aggregator modes), and the Corpus Scorer returns
empty whenever no term survives the minimum-document-frequency filter. -/
theorem empty_inputs_empty_results (articles : List Article) (n : ℕ) (m : ℤ)
    (b : Bool) :
    extract_tfidf_keywords [] n m = [] ∧
      extract_bigram_tfidf [] n m = [] ∧
      identify_trending_stories [] b = [] ∧
      (dfSurvivor (documentsU articles) m = false →
        extract_tfidf_keywords articles n m = []) ∧
      (dfSurvivor (documentsB articles) m = false →
        extract_bigram_tfidf articles n m = []) := by
  refine ⟨?_, ?_, ?_, fun h => tfidfPipeline_no_survivor h,
    fun h => tfidfPipeline_no_survivor h⟩
  · simp [extract_tfidf_keywords, tfidfPipeline, documentsU]
  · simp [extract_bigram_tfidf, tfidfPipeline, documentsB]
  · cases b
    · simp [identify_trending_stories, identifyTrendingBasic, keywordCountsBasic]
    · simp [identify_trending_stories, identifyTrendingTfidf, keywordCountsOver,
        tfidfTermsOf, extract_tfidf_keywords, extract_bigram_tfidf, tfidfPipeline,
        documentsU, documentsB]

/-- C7 witness: the empty-filter conditions discharged concretely — a single
article (`min_df = 2`, no term can reach df 2) yields empty rankings. -/
theorem empty_inputs_empty_results_witness :
    extract_tfidf_keywords [] 50 2 = [] ∧
      extract_bigram_tfidf [] 50 2 = [] ∧
      identify_trending_stories [] false = [] ∧
      (dfSurvivor (documentsU [wA]) 2 = false →
        extract_tfidf_keywords [wA] 50 2 = []) ∧
      (dfSurvivor (documentsB [wA]) 2 = false →
        extract_bigram_tfidf [wA] 50 2 = []) :=
  empty_inputs_empty_results [wA] 50 2 false

/-! ## C9: a negative `min_df` does not raise -/

/-- For a term that occurs somewhere, a negative df threshold and the
threshold `1` accept it equally (both vacuously). -/
theorem dfKeep_neg {docs : List (List String)} {m : ℤ} (hm : m < 0) {w : String}
    (hw : w ∈ docs.flatten) : dfKeep docs m w = dfKeep docs 1 w := by
  obtain ⟨d, hd, hwd⟩ := List.mem_flatten.mp hw
  have h1 : 0 < dfCount docs w := dfCount_pos hd hwd
  have hml : m ≤ (dfCount docs w : ℤ) := le_trans hm.le (by exact_mod_cast Nat.zero_le _)
  have h1l : (1 : ℤ) ≤ (dfCount docs w : ℤ) := by exact_mod_cast h1
  simp [dfKeep, hml, h1l]

/-- A negative threshold and threshold `1` filter identically. -/
theorem dfSurvivor_neg {docs : List (List String)} {m : ℤ} (hm : m < 0) :
    dfSurvivor docs m = dfSurvivor docs 1 := by
  unfold dfSurvivor
  exact listAnyCongr (fun w hw => dfKeep_neg hm hw)

/-- The score table of a negative threshold equals that of threshold `1`. -/
theorem tfidfScores_neg {docs : List (List String)} {m : ℤ} (hm : m < 0) :
    tfidfScores docs m = tfidfScores docs 1 := by
  unfold tfidfScores
  refine foldlCongrMem (fun acc d hd => ?_) []
  refine foldlCongrMem (fun acc2 w hw => ?_) acc
  have hwf : w ∈ docs.flatten := List.mem_flatten.mpr ⟨d, hd, mem_firstDedup hw⟩
  rw [dfKeep_neg hm hwf]

/-- C9 (amended): calling the Corpus Scorer with a negative
`min_document_frequency` does **not** raise — the source has no validation
and no raising operation on this path — it silently returns the very ranking
obtained with the vacuous threshold `1`. -/
theorem negative_min_df_returns_ranking (articles : List Article) (n : ℕ) (m : ℤ)
    (hm : m < 0) :
    extract_tfidf_keywords articles n m = extract_tfidf_keywords articles n 1 := by
  unfold extract_tfidf_keywords tfidfPipeline
  rw [dfSurvivor_neg hm, tfidfScores_neg hm]

/-- C9 witness: the amended equation at the concrete corpus `[wA, wA]` with
`min_df = -1`. -/
theorem negative_min_df_returns_ranking_witness :
    extract_tfidf_keywords [wA, wA] 50 (-1) = extract_tfidf_keywords [wA, wA] 50 1 :=
  negative_min_df_returns_ranking [wA, wA] 50 (-1) (by norm_num)

/-- C9 counterexample: with `min_df = -1` on a concrete two-article corpus the
Corpus Scorer returns a non-empty ranking — it does not fail fast at call
time as the claim states. -/
theorem negative_min_df_no_error :
    extract_tfidf_keywords [wA, wA] 50 (-1) ≠ [] := by
  have h1 : dfSurvivor (documentsU [wA, wA]) (-1) = true := by
    with_unfolding_all decide
  have h2 : (documentsU [wA, wA]).isEmpty = false := by
    with_unfolding_all decide
  have hlen : (tfidfScores (documentsU [wA, wA]) (-1)).length = 1 := by
    with_unfolding_all rfl
  unfold extract_tfidf_keywords tfidfPipeline
  simp only [h1, h2, Bool.false_eq_true, if_false, if_true]
  apply List.ne_nil_of_length_pos
  unfold rankDesc
  rw [List.length_take, List.length_mergeSort, hlen]
  norm_num

/-! ## C1: the corroboration invariant of the Trending-Topic Aggregator -/

/-- Fold invariant preservation, with the step hypothesis restricted to
members of the folded list. -/
theorem foldl_inv_mem {α β : Type} {P : β → Prop} {l : List α} (f : β → α → β)
    (hf : ∀ b : β, ∀ a ∈ l, P b → P (f b a)) : ∀ b : β, P b → P (l.foldl f b) := by
  induction l with
  | nil => intro b hb; exact hb
  | cons a l ih =>
    intro b hb
    rw [List.foldl_cons]
    exact ih (fun b' x hx hb' => hf b' x (List.mem_cons_of_mem _ hx) hb') _
      (hf b a (List.mem_cons_self _ _) hb)

/-- `pushArt` preserves a per-key membership invariant when the appended
article satisfies it for its key. -/
theorem pushArt_forall {R : String → Article → Prop} :
    ∀ (kc : List (String × List Article)) (k : String) (a : Article),
      (∀ p ∈ kc, ∀ x ∈ p.2, R p.1 x) → R k a →
      ∀ p ∈ pushArt kc k a, ∀ x ∈ p.2, R p.1 x := by
  intro kc
  induction kc with
  | nil =>
    intro k a _ hk p hp x hx
    simp only [pushArt, List.mem_singleton] at hp
    subst hp
    simp only [List.mem_singleton] at hx
    subst hx; exact hk
  | cons q rest ih =>
    intro k a h hk p hp x hx
    obtain ⟨k0, v0⟩ := q
    by_cases hk0 : k0 = k
    · simp only [pushArt, if_pos hk0] at hp
      rcases List.mem_cons.mp hp with rfl | hp
      · rcases List.mem_append.mp hx with hx | hx
        · exact h (k0, v0) (List.mem_cons_self _ _) x hx
        · simp only [List.mem_singleton] at hx
          subst hx; subst hk0; exact hk
      · exact h p (List.mem_cons_of_mem _ hp) x hx
    · simp only [pushArt, if_neg hk0] at hp
      rcases List.mem_cons.mp hp with rfl | hp
      · exact h (k0, v0) (List.mem_cons_self _ _) x hx
      · exact ih k a (fun r hr => h r (List.mem_cons_of_mem _ hr)) hk p hp x hx

/-- The per-entry invariant of a keyword-count table: every credited article
satisfies relation `R` with the entry's key. -/
def KcOK (R : String → Article → Prop) (kc : List (String × List Article)) : Prop :=
  ∀ p ∈ kc, ∀ x ∈ p.2, R p.1 x

/-- The substring relation of the TF-IDF branch's scan. -/
def InText (term : String) (x : Article) : Prop :=
  term.toList <:+: (textLower x).toList

/-- The keyword-origin relation of the fallback branch. -/
def FromKeywords (kw : String) (x : Article) : Prop :=
  kw ∈ extract_keywords (x.title ++ " " ++ x.summary)

/-- Every article credited to a term by the TF-IDF branch's scan contains the
term as a substring of its lower-cased title+summary. -/
theorem kcOver_forall (terms : List String) (articles : List Article) :
    KcOK InText (keywordCountsOver terms articles) := by
  unfold keywordCountsOver
  refine foldl_inv_mem (P := KcOK InText) _ (fun kc a _ hkc => ?_) [] ?_
  · refine foldl_inv_mem (P := KcOK InText) _ (fun kc2 term _ hkc2 => ?_) kc hkc
    by_cases hin : term.toList <:+: (textLower a).toList
    · rw [if_pos hin]
      exact pushArt_forall kc2 term a hkc2 hin
    · rw [if_neg hin]; exact hkc2
  · intro p hp; simp at hp

/-- Every article credited to a keyword by the fallback branch actually
yielded that keyword in its extracted keyword set. -/
theorem kcBasic_forall (articles : List Article) :
    KcOK FromKeywords (keywordCountsBasic articles) := by
  unfold keywordCountsBasic
  refine foldl_inv_mem (P := KcOK FromKeywords) _ (fun kc a _ hkc => ?_) [] ?_
  · refine foldl_inv_mem (P := KcOK FromKeywords) _ (fun kc2 kw hkw hkc2 => ?_) kc hkc
    exact pushArt_forall kc2 kw a hkc2 (mem_firstDedup hkw)
  · intro p hp; simp at hp

/-- A list with at least 3 distinct sources is non-empty. -/
theorem ne_nil_of_sources {arts : List Article} (h : 3 ≤ distinctSources arts) :
    arts ≠ [] := by
  intro he
  subst he
  simp [distinctSources, firstDedup] at h

/-- `assocPut` preserves a value invariant when the new value satisfies it. -/
theorem assocPut_forall {β : Type} {P : β → Prop} :
    ∀ (l : List (String × β)) (k : String) (v : β),
      (∀ p ∈ l, P p.2) → P v → ∀ p ∈ assocPut l k v, P p.2 := by
  intro l
  induction l with
  | nil =>
    intro k v _ hv p hp
    simp only [assocPut, List.mem_singleton] at hp
    subst hp; exact hv
  | cons q rest ih =>
    intro k v h hv p hp
    obtain ⟨k0, v0⟩ := q
    by_cases hk0 : k0 = k
    · simp only [assocPut, if_pos hk0] at hp
      rcases List.mem_cons.mp hp with rfl | hp
      · exact hv
      · exact h p (List.mem_cons_of_mem _ hp)
    · simp only [assocPut, if_neg hk0] at hp
      rcases List.mem_cons.mp hp with rfl | hp
      · exact h (k0, v0) (List.mem_cons_self _ _)
      · exact ih k v (fun r hr => h r (List.mem_cons_of_mem _ hr)) hv p hp

/-- The topic invariant established for a relation `R` between the keyword
and each listed article. -/
def TopicOK (R : String → Article → Prop) (t : TrendingTopic) : Prop :=
  3 ≤ t.source_count ∧ t.articles ≠ [] ∧ ∀ x ∈ t.articles, R t.keyword x

/-- Every topic built by the TF-IDF branch is corroborated by at least 3
distinct sources, carries a non-empty article list, and every listed article
contains the keyword as a substring of its lower-cased text. -/
theorem identifyTrendingTfidf_forall (articles : List Article) :
    ∀ t ∈ identifyTrendingTfidf articles, TopicOK InText t := by
  intro t ht
  unfold identifyTrendingTfidf at ht
  have ht3 := List.mem_mergeSort.mp (List.mem_of_mem_take ht)
  obtain ⟨⟨kw, arts⟩, hkc, hf⟩ := List.mem_filterMap.mp ht3
  dsimp only at hf
  split_ifs at hf with h3
  obtain rfl := Option.some_inj.mp hf
  refine ⟨h3, take_ne_nil (ne_nil_of_sources h3) (by norm_num), fun x hx => ?_⟩
  exact kcOver_forall _ articles (kw, arts) hkc x (List.mem_of_mem_take hx)

/-- Every topic built by the fallback branch is corroborated by at least 3
distinct sources, carries a non-empty article list, and every listed article
yielded the keyword in its extracted keyword set. -/
theorem identifyTrendingBasic_forall (articles : List Article) :
    ∀ t ∈ identifyTrendingBasic articles, TopicOK FromKeywords t := by
  intro t ht
  unfold identifyTrendingBasic at ht
  have ht3 := List.mem_mergeSort.mp (List.mem_of_mem_take ht)
  obtain ⟨⟨kw, tt⟩, htr, rfl⟩ := List.mem_map.mp ht3
  refine foldl_inv_mem
    (P := fun tr : List (String × TrendingTopic) => ∀ p ∈ tr, TopicOK FromKeywords p.2)
    _ (fun tr p hp htrinv => ?_) [] (fun p hp => by simp at hp) (kw, tt) htr
  dsimp only
  split_ifs with h3 hok
  · refine assocPut_forall (P := TopicOK FromKeywords) tr p.1 _ htrinv ?_
    refine ⟨h3, take_ne_nil (ne_nil_of_sources h3) (by norm_num), fun x hx => ?_⟩
    exact kcBasic_forall articles p hp x (List.mem_of_mem_take hx)
  · exact htrinv
  · exact htrinv

/-- C1 (amended): in both aggregator modes every trending topic has at least
3 corroborating distinct sources and a non-empty representative article list;
in TF-IDF mode every listed article contains the keyword as a case-insensitive
substring of its title+summary, while in fallback mode every listed article
yields the keyword among its extracted keywords — which for a *bigram*
keyword need not be a substring of the text (the two tokens may be separated
by punctuation, see `trending_bigram_not_substring`). -/
theorem trending_topics_corroborated (articles : List Article) (b : Bool) :
    (identify_trending_stories articles b).Forall (fun t =>
      3 ≤ t.source_count ∧ t.articles ≠ [] ∧
        t.articles.Forall (fun x =>
          if b then t.keyword.toList <:+: (textLower x).toList
          else t.keyword ∈ extract_keywords (x.title ++ " " ++ x.summary))) := by
  rw [List.forall_iff_forall_mem]
  intro t ht
  cases b
  · simp only [identify_trending_stories, Bool.false_eq_true, if_false] at ht
    obtain ⟨h1, h2, h3⟩ := identifyTrendingBasic_forall articles t ht
    refine ⟨h1, h2, ?_⟩
    rw [List.forall_iff_forall_mem]
    intro x hx
    simpa [FromKeywords] using h3 x hx
  · simp only [identify_trending_stories, if_true] at ht
    obtain ⟨h1, h2, h3⟩ := identifyTrendingTfidf_forall articles t ht
    refine ⟨h1, h2, ?_⟩
    rw [List.forall_iff_forall_mem]
    intro x hx
    simpa [InText] using h3 x hx

/-- C1 counterexample: in fallback mode, three articles from three distinct
sources with text `"Alpha, beta"` produce the trending bigram topic
`"alpha beta"` whose own articles do **not** contain it as a substring of
their lower-cased title+summary — the comma separates the two tokens. -/
theorem trending_bigram_not_substring :
    ∃ t ∈ identify_trending_stories [b1, b2, b3] false,
      t.keyword = "alpha beta" ∧ ∃ x ∈ t.articles,
        ¬ t.keyword.toList <:+: (textLower x).toList := by
  with_unfolding_all decide

end Eastbound
